import Mathlib

/-!
Verification development for the `migo` database migration tool (`main.go`).

The Go source is shallowly embedded below:

* pure helpers (`parseInt64`, `parseMigrationFile`, `loadMigrations`) become
  Lean functions over `String` / `List Char`;
* the database is a `DBState` value (history rows plus a log of successfully
  executed SQL statements), and `db.Exec` of a user-supplied script succeeds
  or fails according to an oracle `execOk : String → Bool`;
* inserts into `schema_migrations` respect the BIGINT primary key on
  `version` (they fail when the version is already present);
* `log.Fatalf` terminates the process, modelled by returning the error kind
  together with the state at the moment of termination;
* `crypto/sha256` (standard library, FIPS 180-4) is embedded as an
  executable SHA-256 over byte lists, with 32-bit words as `Nat` reduced
  `% 2^32`.

Machine integers: Go's `int64` versions produced by `parseInt64` are decimal
values of digit strings; all claims use small versions, so they are embedded
as `Nat`.
-/

deriving instance DecidableEq for Except

/-! ## SHA-256 (embedding of Go `crypto/sha256.Sum256`) -/

def w32 (x : Nat) : Nat := x % 4294967296

def rotr (n x : Nat) : Nat := w32 ((x >>> n) ||| (x <<< (32 - n)))

def sigma0 (x : Nat) : Nat := (rotr 7 x) ^^^ (rotr 18 x) ^^^ (x >>> 3)

def sigma1 (x : Nat) : Nat := (rotr 17 x) ^^^ (rotr 19 x) ^^^ (x >>> 10)

def bigSigma0 (x : Nat) : Nat := (rotr 2 x) ^^^ (rotr 13 x) ^^^ (rotr 22 x)

def bigSigma1 (x : Nat) : Nat := (rotr 6 x) ^^^ (rotr 11 x) ^^^ (rotr 25 x)

def chFn (e f g : Nat) : Nat := (e &&& f) ^^^ ((e ^^^ 4294967295) &&& g)

def majFn (a b c : Nat) : Nat := (a &&& b) ^^^ (a &&& c) ^^^ (b &&& c)

def K256 : List Nat :=
  [1116352408, 1899447441, 3049323471, 3921009573, 961987163, 1508970993,
   2453635748, 2870763221, 3624381080, 310598401, 607225278, 1426881987,
   1925078388, 2162078206, 2614888103, 3248222580, 3835390401, 4022224774,
   264347078, 604807628, 770255983, 1249150122, 1555081692, 1996064986,
   2554220882, 2821834349, 2952996808, 3210313671, 3336571891, 3584528711,
   113926993, 338241895, 666307205, 773529912, 1294757372, 1396182291,
   1695183700, 1986661051, 2177026350, 2456956037, 2730485921, 2820302411,
   3259730800, 3345764771, 3516065817, 3600352804, 4094571909, 275423344,
   430227734, 506948616, 659060556, 883997877, 958139571, 1322822218,
   1537002063, 1747873779, 1955562222, 2024104815, 2227730452, 2361852424,
   2428436474, 2756734187, 3204031479, 3329325298]

structure Hash8 where
  a : Nat
  b : Nat
  c : Nat
  d : Nat
  e : Nat
  f : Nat
  g : Nat
  h : Nat
deriving DecidableEq, Repr

def initH : Hash8 :=
  ⟨1779033703, 3144134277, 1013904242, 2773480762,
   1359893119, 2600822924, 528734635, 1541459225⟩

/-- One SHA-256 round, consuming a `(K[t], W[t])` pair. -/
def roundStep (st : Hash8) (kw : Nat × Nat) : Hash8 :=
  let t1 := w32 (st.h + bigSigma1 st.e + chFn st.e st.f st.g + kw.1 + kw.2)
  let t2 := w32 (bigSigma0 st.a + majFn st.a st.b st.c)
  ⟨w32 (t1 + t2), st.a, st.b, st.c, w32 (st.d + t1), st.e, st.f, st.g⟩

def rounds (ws : List Nat) (st : Hash8) : Hash8 :=
  (K256.zip ws).foldl roundStep st

/-- Extend the (reversed) message schedule by `n` further words. -/
def extendW : Nat → List Nat → List Nat
  | 0, rw => rw
  | n + 1, rw =>
      extendW n
        (w32 (sigma1 (rw.getD 1 0) + rw.getD 6 0 + sigma0 (rw.getD 14 0) + rw.getD 15 0) :: rw)

/-- The 16 big-endian 32-bit words of one 64-byte block. -/
def blockWords (blk : List Nat) : List Nat :=
  (List.range 16).map fun i =>
    (blk.getD (4 * i) 0) <<< 24 ||| (blk.getD (4 * i + 1) 0) <<< 16 |||
    (blk.getD (4 * i + 2) 0) <<< 8 ||| blk.getD (4 * i + 3) 0

def msgSchedule (blk : List Nat) : List Nat :=
  (extendW 48 (blockWords blk).reverse).reverse

def addHash (x y : Hash8) : Hash8 :=
  ⟨w32 (x.a + y.a), w32 (x.b + y.b), w32 (x.c + y.c), w32 (x.d + y.d),
   w32 (x.e + y.e), w32 (x.f + y.f), w32 (x.g + y.g), w32 (x.h + y.h)⟩

def stepBlock (st : Hash8) (blk : List Nat) : Hash8 :=
  addHash st (rounds (msgSchedule blk) st)

/-- Split into 64-byte blocks; the fuel argument bounds the recursion and is
always sufficient when instantiated with the list length. -/
def toBlocksAux : Nat → List Nat → List (List Nat)
  | 0, _ => []
  | _, [] => []
  | fuel + 1, bs => bs.take 64 :: toBlocksAux fuel (bs.drop 64)

def toBlocks (bs : List Nat) : List (List Nat) := toBlocksAux bs.length bs

/-- `n` big-endian bytes of `v`. -/
def beBytes (n v : Nat) : List Nat :=
  (List.range n).map fun i => (v >>> (8 * (n - 1 - i))) % 256

def padZeros (len : Nat) : Nat := (120 - (len + 1) % 64) % 64

def padMessage (bs : List Nat) : List Nat :=
  bs ++ [0x80] ++ List.replicate (padZeros bs.length) 0 ++ beBytes 8 (bs.length * 8)

def wordBytes (w : Nat) : List Nat :=
  [(w >>> 24) % 256, (w >>> 16) % 256, (w >>> 8) % 256, w % 256]

def hashBytes (st : Hash8) : List Nat :=
  wordBytes st.a ++ wordBytes st.b ++ wordBytes st.c ++ wordBytes st.d ++
  wordBytes st.e ++ wordBytes st.f ++ wordBytes st.g ++ wordBytes st.h

def sha256Bytes (msg : List Nat) : List Nat :=
  hashBytes ((toBlocks (padMessage msg)).foldl stepBlock initH)

def hexDigit (n : Nat) : Char :=
  if n < 10 then Char.ofNat (48 + n) else Char.ofNat (87 + n)

def byteHex (b : Nat) : String :=
  String.mk [hexDigit (b / 16 % 16), hexDigit (b % 16)]

def bytesToHex : List Nat → String
  | [] => ""
  | b :: bs => byteHex b ++ bytesToHex bs

/-- UTF-8 encoding of one code point (Go strings are UTF-8 byte sequences). -/
def utf8Encode (n : Nat) : List Nat :=
  if n < 0x80 then [n]
  else if n < 0x800 then [0xc0 ||| (n >>> 6), 0x80 ||| (n &&& 0x3f)]
  else if n < 0x10000 then
    [0xe0 ||| (n >>> 12), 0x80 ||| ((n >>> 6) &&& 0x3f), 0x80 ||| (n &&& 0x3f)]
  else
    [0xf0 ||| (n >>> 18), 0x80 ||| ((n >>> 12) &&& 0x3f),
     0x80 ||| ((n >>> 6) &&& 0x3f), 0x80 ||| (n &&& 0x3f)]

def strBytes (s : String) : List Nat :=
  (s.toList.map fun c => utf8Encode c.toNat).flatten

/-- Hex SHA-256 of the UTF-8 bytes of a string: `hex.EncodeToString(sha256.Sum256(content))`. -/
def sha256Hex (s : String) : String :=
  bytesToHex (sha256Bytes (strBytes s))

/-! ## String helpers (embedding of `strings.SplitN`, `strings.ReplaceAll`,
`strings.TrimSpace`, `strings.HasSuffix` used by `main.go`) -/

/-- Split at the first occurrence of `sep` (Go `strings.SplitN(s, sep, 2)`
when it finds a separator); `none` when `sep` does not occur. -/
def splitFirst (sep : List Char) : List Char → Option (List Char × List Char)
  | [] => if sep.isEmpty then some ([], []) else none
  | c :: cs =>
      if sep.isPrefixOf (c :: cs) then some ([], (c :: cs).drop sep.length)
      else
        match splitFirst sep cs with
        | some (pre, post) => some (c :: pre, post)
        | none => none

/-- Remove every (non-overlapping, left-to-right) occurrence of `pat`
(Go `strings.ReplaceAll(s, pat, "")`); fuel bounds the recursion and is
always sufficient when instantiated with the list length. -/
def removeAllAux (pat : List Char) : Nat → List Char → List Char
  | 0, l => l
  | _, [] => []
  | fuel + 1, c :: cs =>
      if pat.isPrefixOf (c :: cs) then removeAllAux pat fuel ((c :: cs).drop pat.length)
      else c :: removeAllAux pat fuel cs

def removeAll (pat l : List Char) : List Char := removeAllAux pat l.length l

/-- Go `unicode.IsSpace` restricted to the ASCII range (the only characters
relevant to the embedded claims). -/
def isSpaceChar (c : Char) : Bool :=
  c == ' ' || c == '\t' || c == '\n' || c == Char.ofNat 11 || c == Char.ofNat 12 || c == '\r'

/-- Go `strings.TrimSpace`. -/
def trimSpace (l : List Char) : List Char :=
  ((l.dropWhile isSpaceChar).reverse.dropWhile isSpaceChar).reverse

def hasSuffixSql (fn : String) : Bool :=
  [Char.ofNat 46, 's', 'q', 'l'].isSuffixOf fn.toList

/-! ## Migration parsing (embedding of `parseMigrationFile`, `parseInt64`,
`loadMigrations` from `main.go`) -/

structure Migration where
  Version : Nat
  Name : String
  UpSQL : String
  DownSQL : String
  Checksum : String
deriving DecidableEq, Repr

/-- Go `parseInt64` (`fmt.Sscanf(s, "%d", &v)`) on the all-digit capture
group of the filename pattern: the decimal value of the digit string. -/
def parseInt64 (s : String) : Nat :=
  s.toList.foldl (fun acc c => acc * 10 + (c.toNat - 48)) 0

/-- The filename pattern of `parseMigrationFile`:
the anchored match of the pattern "digits, underscore, dot-free name, dot, sql"
returning the digit token and the name token, `none` when it does not match. -/
def matchFilename (fn : String) : Option (String × String) :=
  let cs := fn.toList
  let digits := cs.takeWhile Char.isDigit
  let rest := cs.dropWhile Char.isDigit
  match digits, rest with
  | [], _ => none
  | _, '_' :: rest2 =>
      let nameChars := rest2.takeWhile (fun c => c != Char.ofNat 46)
      let tailChars := rest2.dropWhile (fun c => c != Char.ofNat 46)
      if nameChars.isEmpty then none
      else if tailChars == [Char.ofNat 46, 's', 'q', 'l'] then
        some (String.mk digits, String.mk nameChars)
      else none
  | _, _ => none

def downMarker : List Char := "-- +down".toList

def upMarker : List Char := "-- +up".toList

/-- Embedding of `parseMigrationFile`. The file read is factored out: the
caller supplies the file's base name and its raw content. -/
def parseMigrationFile (filename content : String) : Except String Migration :=
  match matchFilename filename with
  | none => .error ("invalid filename: " ++ filename)
  | some (digits, name) =>
      match splitFirst downMarker content.toList with
      | none => .error ("missing '-- +down' section in " ++ filename)
      | some (pre, post) =>
          .ok { Version := parseInt64 digits
                Name := name
                UpSQL := String.mk (trimSpace (removeAll upMarker pre))
                DownSQL := String.mk (trimSpace post)
                Checksum := sha256Hex content }

/-- Insertion step for the version sort performed by `loadMigrations`
(`sort.Slice` on `Version <`). -/
def insertMig (m : Migration) : List Migration → List Migration
  | [] => [m]
  | x :: xs => if m.Version ≤ x.Version then m :: x :: xs else x :: insertMig m xs

def sortMigs : List Migration → List Migration
  | [] => []
  | x :: xs => insertMig x (sortMigs xs)

/-- A directory is a list of `(base name, raw content)` pairs of its regular
files (directory entries that are themselves directories are outside the
model). -/
abbrev MigFiles := List (String × String)

def parseAll : MigFiles → Except String (List Migration)
  | [] => .ok []
  | (fn, content) :: rest =>
      if hasSuffixSql fn then
        match parseMigrationFile fn content with
        | .error e => .error e
        | .ok m => (parseAll rest).map (fun ms => m :: ms)
      else parseAll rest

/-- Embedding of `loadMigrations`: parse every `.sql` entry (any parse error
aborts the whole load), then sort ascending by version. -/
def loadMigrations (fs : MigFiles) : Except String (List Migration) :=
  (parseAll fs).map sortMigs

/-! ## Database model: history table, statement log, error kinds -/

/-- One row of `schema_migrations`. -/
structure AppRow where
  version : Nat
  name : String
  checksum : String
  appliedAt : Nat
deriving DecidableEq, Repr

/-- The observable database state: the `schema_migrations` rows (in insertion
order) and the ordered log of successfully executed user SQL scripts. -/
structure DBState where
  history : List AppRow
  executed : List String
deriving DecidableEq, Repr

/-- The fatal conditions (`log.Fatalf` call sites) of the engine. -/
inductive MigErr where
  | loadError (msg : String)
  | checksumMismatch (version : Nat) (name : String)
  | execFailed (version : Nat)
  | recordFailed (version : Nat)
  | resolveError (msg : String)
deriving DecidableEq, Repr

/-- First `schema_migrations` row with the given version (the primary key
keeps versions unique, so "first" is "the" row in well-formed states). -/
def lookupRow (hist : List AppRow) (v : Nat) : Option AppRow :=
  hist.find? (fun r => r.version == v)

/-- Embedding of `appliedMigrations`: the version-to-checksum map. -/
def appliedMap (hist : List AppRow) : Nat → Option String :=
  fun v => (lookupRow hist v).map (fun r => r.checksum)

def mkRow (now : Nat) (m : Migration) : AppRow :=
  ⟨m.Version, m.Name, m.Checksum, now⟩

/-- Outcome of one engine run: `err = none` means the process completed
normally; otherwise it terminated at a `log.Fatalf` with `state` the
database state at that moment. -/
structure RunResult where
  err : Option MigErr
  state : DBState
deriving DecidableEq, Repr

/-- The `up-to` break condition `upTo && len(target) > 0 && m.Version > target[0]`. -/
def tooFar (upTo : Bool) (target : List Nat) (v : Nat) : Bool :=
  upTo && match target with
          | t :: _ => decide (v > t)
          | [] => false

/-- Embedding of `validate checksums before applying anything` in
`applyMigrations`: the first discovered migration whose version is applied
with a different stored checksum. -/
def findMismatch (ms : List Migration) (hist : List AppRow) : Option Migration :=
  ms.find? (fun m =>
    match lookupRow hist m.Version with
    | some r => r.checksum != m.Checksum
    | none => false)

/-- The apply loop of `applyMigrations`. `applied` is the map loaded before
the loop (the Go code never refreshes it); the primary-key check of the
`INSERT` is made against the current history. -/
def applyLoop (applied : Nat → Option String) (execOk : String → Bool) (now : Nat)
    (upTo : Bool) (target : List Nat) : List Migration → DBState → RunResult
  | [], st => ⟨none, st⟩
  | m :: rest, st =>
      if (applied m.Version).isSome then
        applyLoop applied execOk now upTo target rest st
      else if tooFar upTo target m.Version then ⟨none, st⟩
      else if execOk m.UpSQL then
        let st1 : DBState := ⟨st.history, st.executed ++ [m.UpSQL]⟩
        if (lookupRow st1.history m.Version).isSome then ⟨some (.recordFailed m.Version), st1⟩
        else
          applyLoop applied execOk now upTo target rest
            ⟨st1.history ++ [mkRow now m], st1.executed⟩
      else ⟨some (.execFailed m.Version), st⟩

/-- Embedding of `applyMigrations` (`up` when `upTo = false`, `up-to` when
`upTo = true` with `target = [t]`). -/
def applyMigrations (fs : MigFiles) (execOk : String → Bool) (now : Nat)
    (upTo : Bool) (target : List Nat) (st : DBState) : RunResult :=
  match loadMigrations fs with
  | .error e => ⟨some (.loadError e), st⟩
  | .ok ms =>
      match findMismatch ms st.history with
      | some m => ⟨some (.checksumMismatch m.Version m.Name), st⟩
      | none => applyLoop (appliedMap st.history) execOk now upTo target ms st

/-- Outcome of one `down` run; `noOp` records the successful
`"No migrations to rollback"` path. -/
structure RollResult where
  err : Option MigErr
  noOp : Bool
  state : DBState
deriving DecidableEq, Repr

/-- The `ORDER BY version DESC LIMIT 1` row. -/
def maxRow : List AppRow → Option AppRow
  | [] => none
  | r :: rs =>
      match maxRow rs with
      | none => some r
      | some r2 => if r.version ≥ r2.version then some r else some r2

def lookupFile (fs : MigFiles) (fn : String) : Option String :=
  (fs.find? (fun p => p.1 == fn)).map (fun p => p.2)

/-- The filename `down` reconstructs: `fmt.Sprintf("%d_%s.sql", version, name)`. -/
def rollbackFilename (version : Nat) (name : String) : String :=
  toString version ++ "_" ++ name ++ ".sql"

/-- Embedding of `rollbackLastMigration`. -/
def rollbackLastMigration (fs : MigFiles) (execOk : String → Bool) (st : DBState) : RollResult :=
  match maxRow st.history with
  | none => ⟨none, true, st⟩
  | some r =>
      let fn := rollbackFilename r.version r.name
      match lookupFile fs fn with
      | none => ⟨some (.resolveError ("open " ++ fn)), false, st⟩
      | some content =>
          match parseMigrationFile fn content with
          | .error e => ⟨some (.resolveError e), false, st⟩
          | .ok m =>
              if execOk m.DownSQL then
                ⟨none, false,
                 ⟨st.history.filter (fun q => q.version != r.version),
                  st.executed ++ [m.DownSQL]⟩⟩
              else ⟨some (.execFailed m.Version), false, st⟩

/-! ## `info` (embedding of `showMigrationInfo`) -/

/-- The three-state `Valid` column: `YES`, `CHANGED`, `NO`. -/
inductive ValidState where
  | yes
  | changed
  | notApplied
deriving DecidableEq, Repr

structure InfoEntry where
  version : Nat
  name : String
  valid : ValidState
  appliedAt : Option Nat
deriving DecidableEq, Repr

def infoEntry (hist : List AppRow) (m : Migration) : InfoEntry :=
  match lookupRow hist m.Version with
  | some r =>
      ⟨m.Version, m.Name, if r.checksum == m.Checksum then .yes else .changed, some r.appliedAt⟩
  | none => ⟨m.Version, m.Name, .notApplied, none⟩

/-- Embedding of `showMigrationInfo`: one report line per *discovered*
migration, in ascending version order. -/
def showMigrationInfo (fs : MigFiles) (st : DBState) : Except String (List InfoEntry) :=
  (loadMigrations fs).map (fun ms => ms.map (infoEntry st.history))

/-! ## Helper lemmas -/

theorem lookupRow_append (h1 h2 : List AppRow) (v : Nat) :
    lookupRow (h1 ++ h2) v = (lookupRow h1 v).or (lookupRow h2 v) := by
  simp [lookupRow, List.find?_append]

theorem lookupRow_append_none_iff (h1 h2 : List AppRow) (v : Nat) :
    lookupRow (h1 ++ h2) v = none ↔ lookupRow h1 v = none ∧ lookupRow h2 v = none := by
  rw [lookupRow_append]
  cases lookupRow h1 v <;> simp [Option.or]

theorem lookupRow_append_left {h1 : List AppRow} {v : Nat} {r : AppRow} (h2 : List AppRow)
    (h : lookupRow h1 v = some r) : lookupRow (h1 ++ h2) v = some r := by
  rw [lookupRow_append, h]; rfl

theorem lookupRow_singleton (r : AppRow) (v : Nat) :
    lookupRow [r] v = if r.version == v then some r else none := by
  simp only [lookupRow, List.find?]
  cases h : (r.version == v) <;> simp [h]

theorem lookupRow_singleton_none {r : AppRow} {v : Nat} (h : r.version ≠ v) :
    lookupRow [r] v = none := by
  rw [lookupRow_singleton]
  simp [h]

theorem maxRow_eq_none_iff (hist : List AppRow) : maxRow hist = none ↔ hist = [] := by
  cases hist with
  | nil => simp [maxRow]
  | cons q qs =>
      simp only [maxRow]
      cases maxRow qs with
      | none => simp
      | some r2 =>
          dsimp only
          split <;> simp

theorem maxRow_spec {hist : List AppRow} {r : AppRow} (h : maxRow hist = some r) :
    r ∈ hist ∧ ∀ q ∈ hist, q.version ≤ r.version := by
  induction hist generalizing r with
  | nil => simp [maxRow] at h
  | cons q qs ih =>
      simp only [maxRow] at h
      cases hq : maxRow qs with
      | none =>
          rw [hq] at h
          injection h with h
          subst h
          have hnil : qs = [] := (maxRow_eq_none_iff qs).mp hq
          subst hnil
          exact ⟨List.mem_cons_self _ _, by intro p hp; simp at hp; subst hp; exact Nat.le_refl _⟩
      | some r2 =>
          rw [hq] at h
          dsimp only at h
          obtain ⟨hmem2, hmax2⟩ := ih hq
          by_cases hcmp : q.version ≥ r2.version
          · rw [if_pos hcmp] at h
            injection h with h
            subst h
            refine ⟨List.mem_cons_self _ _, ?_⟩
            intro p hp
            rw [List.mem_cons] at hp
            rcases hp with rfl | hp
            · exact Nat.le_refl _
            · exact Nat.le_trans (hmax2 p hp) hcmp
          · rw [if_neg hcmp] at h
            injection h with h
            subst h
            refine ⟨List.mem_cons_of_mem q hmem2, ?_⟩
            intro p hp
            rw [List.mem_cons] at hp
            rcases hp with rfl | hp
            · exact Nat.le_of_lt (Nat.lt_of_not_le hcmp)
            · exact hmax2 p hp

theorem maxRow_mem {hist : List AppRow} {r : AppRow} (h : maxRow hist = some r) : r ∈ hist :=
  (maxRow_spec h).1

theorem maxRow_max {hist : List AppRow} {r : AppRow} (h : maxRow hist = some r) :
    ∀ q ∈ hist, q.version ≤ r.version :=
  (maxRow_spec h).2

/-- The migrations the apply loop actually reaches and applies:
skip applied versions, stop at the `up-to` boundary, take the rest. -/
def selectPending (applied : Nat → Option String) (upTo : Bool) (target : List Nat) :
    List Migration → List Migration
  | [] => []
  | m :: rest =>
      if (applied m.Version).isSome then selectPending applied upTo target rest
      else if tooFar upTo target m.Version then []
      else m :: selectPending applied upTo target rest

theorem selectPending_sublist (applied : Nat → Option String) (upTo : Bool) (target : List Nat)
    (ms : List Migration) : (selectPending applied upTo target ms).Sublist ms := by
  induction ms with
  | nil => simp [selectPending]
  | cons m rest ih =>
      simp only [selectPending]
      split
      · exact ih.cons m
      · split
        · exact List.nil_sublist _
        · exact ih.cons₂ m

theorem selectPending_mem {applied : Nat → Option String} {upTo : Bool} {target : List Nat}
    {ms : List Migration} {m : Migration} (h : m ∈ selectPending applied upTo target ms) :
    m ∈ ms ∧ (applied m.Version).isNone := by
  induction ms with
  | nil => simp [selectPending] at h
  | cons x rest ih =>
      simp only [selectPending] at h
      split at h
      · exact ⟨List.mem_cons_of_mem x (ih h).1, (ih h).2⟩
      · split at h
        · simp at h
        · rw [List.mem_cons] at h
          rcases h with rfl | h
          · refine ⟨List.mem_cons_self _ _, ?_⟩
            simp_all [Option.isNone_iff_eq_none, Option.not_isSome_iff_eq_none]
          · exact ⟨List.mem_cons_of_mem x (ih h).1, (ih h).2⟩

theorem applyLoop_all_applied (applied : Nat → Option String) (execOk : String → Bool)
    (now : Nat) (upTo : Bool) (target : List Nat) (ms : List Migration) (st : DBState)
    (h : ∀ m ∈ ms, (applied m.Version).isSome) :
    applyLoop applied execOk now upTo target ms st = ⟨none, st⟩ := by
  induction ms with
  | nil => rfl
  | cons m rest ih =>
      have hm : (applied m.Version).isSome := h m (List.mem_cons_self _ _)
      simp only [applyLoop, hm, if_pos]
      exact ih (fun x hx => h x (List.mem_cons_of_mem m hx))

theorem applyLoop_success_spec (applied : Nat → Option String) (execOk : String → Bool)
    (now : Nat) (upTo : Bool) (target : List Nat) :
    ∀ (ms : List Migration) (st : DBState),
    (∀ m ∈ selectPending applied upTo target ms, execOk m.UpSQL = true) →
    (∀ m ∈ selectPending applied upTo target ms, lookupRow st.history m.Version = none) →
    ((selectPending applied upTo target ms).map (fun m => m.Version)).Nodup →
    applyLoop applied execOk now upTo target ms st =
      ⟨none, ⟨st.history ++ (selectPending applied upTo target ms).map (mkRow now),
              st.executed ++ (selectPending applied upTo target ms).map (fun m => m.UpSQL)⟩⟩ := by
  intro ms
  induction ms with
  | nil => intro st _ _ _; simp [applyLoop, selectPending]
  | cons m rest ih =>
      intro st hexec hfresh hnodup
      by_cases hap : (applied m.Version).isSome
      · have hsel : selectPending applied upTo target (m :: rest)
            = selectPending applied upTo target rest := by
          simp [selectPending, hap]
        rw [hsel] at hexec hfresh hnodup
        simp only [applyLoop, hap, if_pos]
        rw [ih st hexec hfresh hnodup, hsel]
      · by_cases hfar : tooFar upTo target m.Version
        · have hsel : selectPending applied upTo target (m :: rest) = [] := by
            simp [selectPending, hap, hfar]
          simp only [applyLoop, hap, if_neg, hfar, if_pos]
          simp [hsel]
        · have hsel : selectPending applied upTo target (m :: rest)
              = m :: selectPending applied upTo target rest := by
            simp [selectPending, hap, hfar]
          rw [hsel] at hexec hfresh hnodup
          have hex : execOk m.UpSQL = true := hexec m (List.mem_cons_self _ _)
          have hfr : lookupRow st.history m.Version = none :=
            hfresh m (List.mem_cons_self _ _)
          simp only [applyLoop, hap, hfar, hex, if_pos, if_neg, Bool.false_eq_true,
            not_false_iff, hfr, Option.isSome_none]
          rw [List.map_cons, List.nodup_cons] at hnodup
          have ihres := ih ⟨st.history ++ [mkRow now m], st.executed ++ [m.UpSQL]⟩
            (fun x hx => hexec x (List.mem_cons_of_mem m hx))
            (fun x hx => by
              rw [lookupRow_append_none_iff]
              refine ⟨hfresh x (List.mem_cons_of_mem m hx), ?_⟩
              refine lookupRow_singleton_none ?_
              show m.Version ≠ x.Version
              intro hvv
              exact hnodup.1 (hvv ▸ List.mem_map_of_mem (fun y => y.Version) hx))
            hnodup.2
          simp only at ihres
          rw [ihres, hsel]
          simp [List.append_assoc]

theorem applyLoop_none_inv (applied : Nat → Option String) (execOk : String → Bool)
    (now : Nat) (upTo : Bool) (target : List Nat) :
    ∀ (ms : List Migration) (st st1 : DBState),
    applyLoop applied execOk now upTo target ms st = ⟨none, st1⟩ →
    st1.history = st.history ++ (selectPending applied upTo target ms).map (mkRow now) ∧
    st1.executed = st.executed ++ (selectPending applied upTo target ms).map (fun m => m.UpSQL) ∧
    (∀ m ∈ selectPending applied upTo target ms, lookupRow st.history m.Version = none) ∧
    ((selectPending applied upTo target ms).map (fun m => m.Version)).Nodup := by
  intro ms
  induction ms with
  | nil =>
      intro st st1 h
      simp only [applyLoop] at h
      injection h with _ hst
      subst hst
      simp [selectPending]
  | cons m rest ih =>
      intro st st1 h
      by_cases hap : (applied m.Version).isSome
      · have hsel : selectPending applied upTo target (m :: rest)
            = selectPending applied upTo target rest := by
          simp [selectPending, hap]
        rw [hsel]
        simp only [applyLoop, hap, if_pos] at h
        exact ih st st1 h
      · by_cases hfar : tooFar upTo target m.Version
        · have hsel : selectPending applied upTo target (m :: rest) = [] := by
            simp [selectPending, hap, hfar]
          simp only [applyLoop, hap, if_neg, Bool.false_eq_true, not_false_iff, hfar,
            if_pos] at h
          injection h with _ hst
          subst hst
          simp [hsel]
        · have hsel : selectPending applied upTo target (m :: rest)
              = m :: selectPending applied upTo target rest := by
            simp [selectPending, hap, hfar]
          rw [hsel]
          simp only [applyLoop, hap, hfar, if_neg, Bool.false_eq_true, not_false_iff] at h
          cases hex : execOk m.UpSQL with
          | false => rw [hex] at h; simp at h
          | true =>
              rw [hex] at h
              simp only [if_pos] at h
              cases hpk : (lookupRow st.history m.Version).isSome with
              | true => rw [hpk] at h; simp at h
              | false =>
                  rw [hpk] at h
                  simp only [Bool.false_eq_true, if_neg, not_false_iff] at h
                  have hfr : lookupRow st.history m.Version = none :=
                    Option.not_isSome_iff_eq_none.mp (by rw [hpk]; exact Bool.false_ne_true)
                  obtain ⟨h1, h2, h3, h4⟩ :=
                    ih ⟨st.history ++ [mkRow now m], st.executed ++ [m.UpSQL]⟩ st1 h
                  simp only at h1 h2 h3
                  have hver : ∀ x ∈ selectPending applied upTo target rest,
                      lookupRow st.history x.Version = none ∧ x.Version ≠ m.Version := by
                    intro x hx
                    have := h3 x hx
                    rw [lookupRow_append_none_iff] at this
                    refine ⟨this.1, ?_⟩
                    intro hvv
                    have hsing := this.2
                    rw [lookupRow_singleton] at hsing
                    have : (mkRow now m).version = x.Version := by simp [mkRow, hvv]
                    simp [this] at hsing
                  refine ⟨?_, ?_, ?_, ?_⟩
                  · rw [h1]; simp [List.append_assoc]
                  · rw [h2]; simp [List.append_assoc]
                  · intro x hx
                    rw [List.mem_cons] at hx
                    rcases hx with rfl | hx
                    · exact hfr
                    · exact (hver x hx).1
                  · rw [List.map_cons, List.nodup_cons]
                    refine ⟨?_, h4⟩
                    intro hmem
                    rw [List.mem_map] at hmem
                    obtain ⟨x, hx, hvx⟩ := hmem
                    exact (hver x hx).2 hvx

def migLE (x y : Migration) : Prop := x.Version ≤ y.Version

theorem insertMig_perm (m : Migration) (l : List Migration) :
    (insertMig m l).Perm (m :: l) := by
  induction l with
  | nil => exact List.Perm.refl _
  | cons x xs ih =>
      simp only [insertMig]
      split
      · exact List.Perm.refl _
      · exact (List.Perm.cons x ih).trans (List.Perm.swap m x xs)

theorem sortMigs_perm (l : List Migration) : (sortMigs l).Perm l := by
  induction l with
  | nil => exact List.Perm.refl _
  | cons x xs ih => exact (insertMig_perm x (sortMigs xs)).trans (List.Perm.cons x ih)

theorem insertMig_pairwise {m : Migration} {l : List Migration}
    (h : l.Pairwise migLE) : (insertMig m l).Pairwise migLE := by
  induction l with
  | nil => simp [insertMig, List.pairwise_cons]
  | cons x xs ih =>
      rw [List.pairwise_cons] at h
      simp only [insertMig]
      split
      · rename_i hle
        rw [List.pairwise_cons]
        refine ⟨?_, List.pairwise_cons.mpr h⟩
        intro y hy
        rw [List.mem_cons] at hy
        rcases hy with rfl | hy
        · exact hle
        · exact Nat.le_trans hle (h.1 y hy)
      · rename_i hgt
        rw [List.pairwise_cons]
        refine ⟨?_, ih h.2⟩
        intro y hy
        have hy' : y = m ∨ y ∈ xs := by
          have := (insertMig_perm m xs).mem_iff.mp hy
          rw [List.mem_cons] at this
          exact this
        rcases hy' with rfl | hy'
        · exact Nat.le_of_lt (Nat.lt_of_not_le hgt)
        · exact h.1 y hy'

theorem sortMigs_sorted (l : List Migration) : (sortMigs l).Pairwise migLE := by
  induction l with
  | nil => simp [sortMigs]
  | cons x xs ih => exact insertMig_pairwise ih

theorem loadMigrations_sorted {fs : MigFiles} {ms : List Migration}
    (h : loadMigrations fs = .ok ms) : ms.Pairwise migLE := by
  unfold loadMigrations at h
  cases hp : parseAll fs with
  | error e => rw [hp] at h; simp [Except.map] at h
  | ok parsed =>
      rw [hp] at h
      simp only [Except.map] at h
      injection h with h
      subst h
      exact sortMigs_sorted parsed

/-- With `upTo = false` the loop never breaks: precisely the pending
migrations are selected. -/
theorem selectPending_up (applied : Nat → Option String) (target : List Nat)
    (ms : List Migration) :
    selectPending applied false target ms
      = ms.filter (fun m => (applied m.Version).isNone) := by
  induction ms with
  | nil => rfl
  | cons m rest ih =>
      simp only [selectPending, tooFar, Bool.false_and]
      by_cases hap : (applied m.Version).isSome
      · rw [if_pos hap, ih, List.filter_cons]
        have : (applied m.Version).isNone = false := by
          simp [Option.isNone_iff_eq_none, Option.isSome_iff_exists] at hap ⊢
          obtain ⟨v, hv⟩ := hap
          simp [hv]
        rw [this]
        simp
      · rw [if_neg hap]
        simp only [Bool.false_eq_true, if_neg, not_false_iff]
        rw [ih, List.filter_cons]
        have : (applied m.Version).isNone = true := by
          simp [Option.isNone_iff_eq_none, Option.not_isSome_iff_eq_none] at hap ⊢
          exact hap
        rw [this]
        simp

/-- On a version-sorted list, `up-to <t>` selects precisely the pending
migrations with version at most `t`. -/
theorem selectPending_upTo (applied : Nat → Option String) (t : Nat)
    {ms : List Migration} (hsorted : ms.Pairwise migLE) :
    selectPending applied true [t] ms
      = ms.filter (fun m => (applied m.Version).isNone && decide (m.Version ≤ t)) := by
  induction ms with
  | nil => rfl
  | cons m rest ih =>
      rw [List.pairwise_cons] at hsorted
      simp only [selectPending, tooFar, Bool.true_and]
      by_cases hap : (applied m.Version).isSome
      · rw [if_pos hap, ih hsorted.2, List.filter_cons]
        have : (applied m.Version).isNone = false := by
          simp [Option.isNone_iff_eq_none, Option.isSome_iff_exists] at hap ⊢
          obtain ⟨v, hv⟩ := hap
          simp [hv]
        rw [this]
        simp
      · rw [if_neg hap]
        have hnone : (applied m.Version).isNone = true := by
          simp [Option.isNone_iff_eq_none, Option.not_isSome_iff_eq_none] at hap ⊢
          exact hap
        by_cases hgt : m.Version > t
        · rw [if_pos (by simpa using hgt)]
          have : rest.filter (fun m => (applied m.Version).isNone && decide (m.Version ≤ t))
              = [] := by
            rw [List.filter_eq_nil_iff]
            intro x hx
            have hmx : m.Version ≤ x.Version := hsorted.1 x hx
            have : ¬ x.Version ≤ t := by omega
            simp [this]
          rw [List.filter_cons, this]
          have : ¬ m.Version ≤ t := by omega
          simp [this]
        · rw [if_neg (by simpa using hgt)]
          rw [ih hsorted.2, List.filter_cons]
          have hle : m.Version ≤ t := by omega
          simp [hnone, hle]

theorem appliedMap_isNone_iff (hist : List AppRow) (v : Nat) :
    (appliedMap hist v).isNone ↔ lookupRow hist v = none := by
  unfold appliedMap
  cases lookupRow hist v <;> simp

theorem findMismatch_none_iff (ms : List Migration) (hist : List AppRow) :
    findMismatch ms hist = none ↔
      ∀ m ∈ ms, ∀ r, lookupRow hist m.Version = some r → r.checksum = m.Checksum := by
  unfold findMismatch
  rw [List.find?_eq_none]
  constructor
  · intro h m hm r hr
    have := h m hm
    rw [hr] at this
    simpa using this
  · intro h m hm
    cases hr : lookupRow hist m.Version with
    | none => simp
    | some r => simpa using h m hm r hr

/-- Success-path characterization of `applyMigrations`: with valid
checksums, distinct versions, and successful execution of every selected
forward script, the run succeeds and appends exactly the selected
migrations' statements and history rows, in selection order. -/
theorem applyMigrations_spec {fs : MigFiles} {ms : List Migration} {st : DBState}
    (execOk : String → Bool) (now : Nat) (upTo : Bool) (target : List Nat)
    (hload : loadMigrations fs = .ok ms)
    (hval : findMismatch ms st.history = none)
    (hnodup : (ms.map (fun m => m.Version)).Nodup)
    (hexec : ∀ m ∈ selectPending (appliedMap st.history) upTo target ms,
      execOk m.UpSQL = true) :
    applyMigrations fs execOk now upTo target st =
      ⟨none,
       ⟨st.history ++ (selectPending (appliedMap st.history) upTo target ms).map (mkRow now),
        st.executed ++
          (selectPending (appliedMap st.history) upTo target ms).map (fun m => m.UpSQL)⟩⟩ := by
  unfold applyMigrations
  rw [hload]
  simp only [hval]
  refine applyLoop_success_spec (appliedMap st.history) execOk now upTo target ms st hexec ?_ ?_
  · intro m hm
    have := (selectPending_mem hm).2
    rw [appliedMap_isNone_iff] at this
    exact this
  · exact hnodup.sublist
      (List.Sublist.map _ (selectPending_sublist (appliedMap st.history) upTo target ms))

/-- Inversion of a successful `applyMigrations` run. -/
theorem applyMigrations_none_inv {fs : MigFiles} {st st1 : DBState}
    {execOk : String → Bool} {now : Nat} {upTo : Bool} {target : List Nat}
    (h : applyMigrations fs execOk now upTo target st = ⟨none, st1⟩) :
    ∃ ms, loadMigrations fs = .ok ms ∧
      findMismatch ms st.history = none ∧
      st1.history = st.history ++
        (selectPending (appliedMap st.history) upTo target ms).map (mkRow now) ∧
      st1.executed = st.executed ++
        (selectPending (appliedMap st.history) upTo target ms).map (fun m => m.UpSQL) ∧
      (∀ m ∈ selectPending (appliedMap st.history) upTo target ms,
        lookupRow st.history m.Version = none) ∧
      ((selectPending (appliedMap st.history) upTo target ms).map
        (fun m => m.Version)).Nodup := by
  unfold applyMigrations at h
  cases hload : loadMigrations fs with
  | error e => rw [hload] at h; simp at h
  | ok ms =>
      rw [hload] at h
      dsimp only at h
      cases hval : findMismatch ms st.history with
      | some m => rw [hval] at h; simp at h
      | none =>
          rw [hval] at h
          obtain ⟨h1, h2, h3, h4⟩ :=
            applyLoop_none_inv (appliedMap st.history) execOk now upTo target ms st st1 h
          exact ⟨ms, rfl, hval, h1, h2, h3, h4⟩

/-! ## Fingerprint length lemmas -/

theorem byteHex_length (b : Nat) : (byteHex b).length = 2 := rfl

theorem bytesToHex_length (bs : List Nat) : (bytesToHex bs).length = 2 * bs.length := by
  induction bs with
  | nil => rfl
  | cons b rest ih =>
      simp only [bytesToHex, String.length_append, byteHex_length, ih, List.length_cons]
      omega

theorem sha256Bytes_length (msg : List Nat) : (sha256Bytes msg).length = 32 := by
  simp [sha256Bytes, hashBytes, wordBytes]

theorem sha256Hex_length (s : String) : (sha256Hex s).length = 64 := by
  unfold sha256Hex
  rw [bytesToHex_length, sha256Bytes_length]

/-! ## Claim theorems -/

/-- C9: for every migration file, the fingerprint stored in the parsed
record equals the SHA-256 digest (fixed-width hex, 64 characters) of the
entire raw file bytes; it depends only on the raw content (so the boundary
trimming of the up/down bodies, and the filename, never alter it), and
parsing the same unmodified bytes always yields the same fingerprint. -/
theorem C9_fingerprint_is_sha256_of_raw_bytes
    (fn content : String) (m : Migration)
    (hparse : parseMigrationFile fn content = .ok m) :
    m.Checksum = sha256Hex content ∧
    m.Checksum.length = 64 ∧
    (∀ fn' m', parseMigrationFile fn' content = .ok m' → m'.Checksum = m.Checksum) := by
  have hchk : ∀ (g c : String) (x : Migration), parseMigrationFile g c = .ok x →
      x.Checksum = sha256Hex c := by
    intro g c x hx
    unfold parseMigrationFile at hx
    cases hg : matchFilename g with
    | none => rw [hg] at hx; simp at hx
    | some p =>
        rw [hg] at hx
        dsimp only at hx
        cases hs : splitFirst downMarker c.toList with
        | none => rw [hs] at hx; simp at hx
        | some pq =>
            rw [hs] at hx
            dsimp only at hx
            injection hx with hx
            rw [← hx]
    
  refine ⟨hchk fn content m hparse, ?_, ?_⟩
  · rw [hchk fn content m hparse]
    exact sha256Hex_length content
  · intro fn' m' hm'
    rw [hchk fn' content m' hm', hchk fn content m hparse]

set_option maxRecDepth 100000 in
/-- Witness for C9 at a concrete migration file. -/
theorem C9_fingerprint_is_sha256_of_raw_bytes_witness :
    (⟨1, "a", "CREATE TABLE a (x INT);", "DROP TABLE a;",
      sha256Hex "-- +up\nCREATE TABLE a (x INT);\n-- +down\nDROP TABLE a;"⟩ :
        Migration).Checksum
      = sha256Hex "-- +up\nCREATE TABLE a (x INT);\n-- +down\nDROP TABLE a;" ∧
    (⟨1, "a", "CREATE TABLE a (x INT);", "DROP TABLE a;",
      sha256Hex "-- +up\nCREATE TABLE a (x INT);\n-- +down\nDROP TABLE a;"⟩ :
        Migration).Checksum.length = 64 ∧
    (∀ fn' m', parseMigrationFile fn'
        "-- +up\nCREATE TABLE a (x INT);\n-- +down\nDROP TABLE a;" = .ok m' →
      m'.Checksum
        = (⟨1, "a", "CREATE TABLE a (x INT);", "DROP TABLE a;",
            sha256Hex "-- +up\nCREATE TABLE a (x INT);\n-- +down\nDROP TABLE a;"⟩ :
              Migration).Checksum) :=
  C9_fingerprint_is_sha256_of_raw_bytes "1_a.sql"
    "-- +up\nCREATE TABLE a (x INT);\n-- +down\nDROP TABLE a;"
    ⟨1, "a", "CREATE TABLE a (x INT);", "DROP TABLE a;",
      sha256Hex "-- +up\nCREATE TABLE a (x INT);\n-- +down\nDROP TABLE a;"⟩
    (by decide)

/-- C10: `down` reconstructs the filename as the plain decimal rendering of
the stored version joined with the stored name. For a migration whose
original filename carried leading zeros ("000001_x.sql", parsed to version
1), `down` looks for "1_x.sql" and fails with a resolution error — history
unchanged, nothing executed — even though the original, unmodified source
file is still present in the directory and still parses to version 1. -/
theorem C10_down_leading_zeros_resolution_failure
    (c : String) (m : Migration) (chk : String) (t : Nat) (execOk : String → Bool)
    (hparse : parseMigrationFile "000001_x.sql" c = .ok m) :
    m.Version = 1 ∧ m.Name = "x" ∧
    lookupFile [("000001_x.sql", c)] "000001_x.sql" = some c ∧
    rollbackLastMigration [("000001_x.sql", c)] execOk ⟨[⟨1, "x", chk, t⟩], []⟩ =
      ⟨some (.resolveError ("open 1_x.sql")), false, ⟨[⟨1, "x", chk, t⟩], []⟩⟩ := by
  have hmf : matchFilename "000001_x.sql" = some ("000001", "x") := by decide
  have hvn : m.Version = 1 ∧ m.Name = "x" := by
    unfold parseMigrationFile at hparse
    rw [hmf] at hparse
    dsimp only at hparse
    cases hs : splitFirst downMarker c.toList with
    | none => rw [hs] at hparse; simp at hparse
    | some pq =>
        rw [hs] at hparse
        dsimp only at hparse
        injection hparse with hparse
        rw [← hparse]
        refine ⟨?_, rfl⟩
        show parseInt64 "000001" = 1
        decide
  refine ⟨hvn.1, hvn.2, ?_, ?_⟩
  · rfl
  · unfold rollbackLastMigration
    have hmax : maxRow [(⟨1, "x", chk, t⟩ : AppRow)] = some ⟨1, "x", chk, t⟩ := rfl
    rw [hmax]
    dsimp only
    have hfn : rollbackFilename (1 : Nat) "x" = "1_x.sql" := by decide
    have hlf : lookupFile [("000001_x.sql", c)] (rollbackFilename (1 : Nat) "x") = none := by
      rw [hfn]
      rfl
    rw [hlf, hfn]
    rfl

set_option maxRecDepth 100000 in
/-- Witness for C10 at a concrete file content. -/
theorem C10_down_leading_zeros_resolution_failure_witness :
    (⟨1, "x", "CREATE TABLE a (x INT);", "DROP TABLE a;",
       sha256Hex "-- +up\nCREATE TABLE a (x INT);\n-- +down\nDROP TABLE a;"⟩ :
         Migration).Version = 1 ∧
    (⟨1, "x", "CREATE TABLE a (x INT);", "DROP TABLE a;",
       sha256Hex "-- +up\nCREATE TABLE a (x INT);\n-- +down\nDROP TABLE a;"⟩ :
         Migration).Name = "x" ∧
    lookupFile [("000001_x.sql", "-- +up\nCREATE TABLE a (x INT);\n-- +down\nDROP TABLE a;")]
        "000001_x.sql"
      = some "-- +up\nCREATE TABLE a (x INT);\n-- +down\nDROP TABLE a;" ∧
    rollbackLastMigration
        [("000001_x.sql", "-- +up\nCREATE TABLE a (x INT);\n-- +down\nDROP TABLE a;")]
        (fun _ => true) ⟨[⟨1, "x", "h", 9⟩], []⟩ =
      ⟨some (.resolveError ("open 1_x.sql")), false, ⟨[⟨1, "x", "h", 9⟩], []⟩⟩ :=
  C10_down_leading_zeros_resolution_failure
    "-- +up\nCREATE TABLE a (x INT);\n-- +down\nDROP TABLE a;"
    ⟨1, "x", "CREATE TABLE a (x INT);", "DROP TABLE a;",
      sha256Hex "-- +up\nCREATE TABLE a (x INT);\n-- +down\nDROP TABLE a;"⟩
    "h" 9 (fun _ => true) (by decide)

/-- C8: `down` distinguishes "nothing to do" from "cannot proceed": on an
empty applied history it succeeds as a "nothing to roll back" no-op (not an
error), whereas when the highest applied version's source file cannot be
resolved it terminates with a fatal resolution error, with no statement
executed and the history table unchanged. -/
theorem C8_down_noop_versus_resolution_error :
    (∀ (fs : MigFiles) (execOk : String → Bool) (st : DBState),
      st.history = [] →
      rollbackLastMigration fs execOk st = ⟨none, true, st⟩) ∧
    (∀ (fs : MigFiles) (execOk : String → Bool) (st : DBState) (r : AppRow),
      maxRow st.history = some r →
      lookupFile fs (rollbackFilename r.version r.name) = none →
      rollbackLastMigration fs execOk st =
        ⟨some (.resolveError ("open " ++ rollbackFilename r.version r.name)), false, st⟩) := by
  constructor
  · intro fs execOk st hnil
    unfold rollbackLastMigration
    rw [(maxRow_eq_none_iff st.history).mpr hnil]
  · intro fs execOk st r hmax hlf
    unfold rollbackLastMigration
    rw [hmax]
    dsimp only
    rw [hlf]

/-- Witness for C8: empty history is a successful no-op; a history row whose
file is missing is a fatal resolution error leaving the state unchanged. -/
theorem C8_down_noop_versus_resolution_error_witness :
    rollbackLastMigration [] (fun _ => true) ⟨[], []⟩ = ⟨none, true, ⟨[], []⟩⟩ ∧
    rollbackLastMigration [] (fun _ => true) ⟨[⟨2, "b", "h2", 4⟩], ["s0"]⟩ =
      ⟨some (.resolveError ("open " ++ rollbackFilename 2 "b")), false,
       ⟨[⟨2, "b", "h2", 4⟩], ["s0"]⟩⟩ :=
  ⟨C8_down_noop_versus_resolution_error.1 [] (fun _ => true) ⟨[], []⟩ rfl,
   C8_down_noop_versus_resolution_error.2 [] (fun _ => true)
     ⟨[⟨2, "b", "h2", 4⟩], ["s0"]⟩ ⟨2, "b", "h2", 4⟩ rfl rfl⟩

def isChecksumMismatchErr : Option MigErr → Bool
  | some (.checksumMismatch _ _) => true
  | _ => false

/-- C1 (amended): for `up` and `up-to`, any discovered migration whose
version is present in applied history with a stored fingerprint different
from the current file's fingerprint makes the run terminate with the
checksum-mismatch (integrity-violation) error before executing any forward
SQL statement and before modifying the history table. (`down`, contrary to
the original claim, performs no fingerprint comparison: see the
counterexample.) -/
theorem C1_up_and_upTo_abort_on_fingerprint_mismatch
    {fs : MigFiles} {ms : List Migration} {st : DBState} {m : Migration} {r : AppRow}
    (execOk : String → Bool) (now : Nat) (upTo : Bool) (target : List Nat)
    (hload : loadMigrations fs = .ok ms) (hm : m ∈ ms)
    (hr : lookupRow st.history m.Version = some r)
    (hne : r.checksum ≠ m.Checksum) :
    isChecksumMismatchErr (applyMigrations fs execOk now upTo target st).err = true ∧
    (applyMigrations fs execOk now upTo target st).state = st := by
  unfold applyMigrations
  rw [hload]
  dsimp only
  have hsome : (findMismatch ms st.history).isSome := by
    unfold findMismatch
    rw [List.find?_isSome]
    refine ⟨m, hm, ?_⟩
    rw [hr]
    simpa using hne
  cases hfm : findMismatch ms st.history with
  | none => rw [hfm] at hsome; simp at hsome
  | some m' => exact ⟨rfl, rfl⟩

set_option maxRecDepth 100000 in
/-- Witness for C1 (amended), at a file whose stored checksum was tampered. -/
theorem C1_up_and_upTo_abort_on_fingerprint_mismatch_witness :
    isChecksumMismatchErr
      (applyMigrations [("1_a.sql", "-- +up\nCREATE TABLE a (x INT);\n-- +down\nDROP TABLE a;")]
        (fun _ => true) 0 false [] ⟨[⟨1, "a", "tampered", 3⟩], []⟩).err = true ∧
    (applyMigrations [("1_a.sql", "-- +up\nCREATE TABLE a (x INT);\n-- +down\nDROP TABLE a;")]
        (fun _ => true) 0 false [] ⟨[⟨1, "a", "tampered", 3⟩], []⟩).state
      = ⟨[⟨1, "a", "tampered", 3⟩], []⟩ :=
  C1_up_and_upTo_abort_on_fingerprint_mismatch (fun _ => true) 0 false []
    (show loadMigrations [("1_a.sql", "-- +up\nCREATE TABLE a (x INT);\n-- +down\nDROP TABLE a;")]
        = .ok [⟨1, "a", "CREATE TABLE a (x INT);", "DROP TABLE a;",
                sha256Hex "-- +up\nCREATE TABLE a (x INT);\n-- +down\nDROP TABLE a;"⟩]
      from by decide)
    (List.mem_cons_self _ _)
    (show lookupRow [⟨1, "a", "tampered", 3⟩] 1 = some ⟨1, "a", "tampered", 3⟩ from rfl)
    (by decide)

set_option maxRecDepth 100000 in
/-- Counterexample to C1 as stated: `down` does not compare fingerprints.
With version 1 applied under stored fingerprint "tampered", different from
the current file's fingerprint, `down` does not abort with an integrity
error: it parses the current file, executes its reverse script, and deletes
the history row. -/
theorem C1_down_ignores_fingerprint_mismatch_counterexample :
    (appliedMap [⟨1, "a", "tampered", 3⟩] 1 = some "tampered") ∧
    sha256Hex "-- +up\nCREATE TABLE a (x INT);\n-- +down\nDROP TABLE a;" ≠ "tampered" ∧
    rollbackLastMigration
        [("1_a.sql", "-- +up\nCREATE TABLE a (x INT);\n-- +down\nDROP TABLE a;")]
        (fun _ => true) ⟨[⟨1, "a", "tampered", 3⟩], []⟩
      = ⟨none, false, ⟨[], ["DROP TABLE a;"]⟩⟩ := by
  refine ⟨rfl, ?_, ?_⟩ <;> decide

theorem infoEntry_version (hist : List AppRow) (m : Migration) :
    (infoEntry hist m).version = m.Version := by
  unfold infoEntry
  cases lookupRow hist m.Version <;> rfl

/-- C2 (amended): `info` emits exactly one report entry per *discovered*
migration, in ascending version order — so a version present in the
applied-history table whose migration file has been deleted (a gap) is
omitted from the report entirely; `info` still succeeds without aborting. -/
theorem C2_info_reports_exactly_discovered
    {fs : MigFiles} {ms : List Migration} (st : DBState)
    (hload : loadMigrations fs = .ok ms) :
    showMigrationInfo fs st = .ok (ms.map (infoEntry st.history)) ∧
    (ms.map (infoEntry st.history)).map (fun e => e.version)
      = ms.map (fun m => m.Version) := by
  constructor
  · unfold showMigrationInfo
    rw [hload]
    rfl
  · rw [List.map_map]
    apply List.map_congr_left
    intro a _
    exact infoEntry_version st.history a

set_option maxRecDepth 100000 in
/-- Witness for C2 (amended): one discovered file, plus an applied gap
version 5 whose file is gone; the report holds exactly the discovered
migration. -/
theorem C2_info_reports_exactly_discovered_witness :
    showMigrationInfo [("1_a.sql", "-- +up\nCREATE TABLE a (x INT);\n-- +down\nDROP TABLE a;")]
        ⟨[⟨5, "gone", "h", 0⟩], []⟩
      = .ok ([⟨1, "a", "CREATE TABLE a (x INT);", "DROP TABLE a;",
               sha256Hex "-- +up\nCREATE TABLE a (x INT);\n-- +down\nDROP TABLE a;"⟩].map
              (infoEntry [⟨5, "gone", "h", 0⟩])) ∧
    ([(⟨1, "a", "CREATE TABLE a (x INT);", "DROP TABLE a;",
        sha256Hex "-- +up\nCREATE TABLE a (x INT);\n-- +down\nDROP TABLE a;"⟩ : Migration)].map
          (infoEntry [⟨5, "gone", "h", 0⟩])).map (fun e => e.version)
      = [(⟨1, "a", "CREATE TABLE a (x INT);", "DROP TABLE a;",
           sha256Hex "-- +up\nCREATE TABLE a (x INT);\n-- +down\nDROP TABLE a;"⟩ :
             Migration)].map (fun m => m.Version) :=
  C2_info_reports_exactly_discovered ⟨[⟨5, "gone", "h", 0⟩], []⟩ (by decide)

/-- Counterexample to C2 as stated: version 5 is present in applied history,
its migration file is deleted (empty directory), yet `info` succeeds with an
*empty* report — no entry at all is emitted for the gap version. -/
theorem C2_info_omits_gap_counterexample :
    lookupRow [⟨5, "x", "h", 0⟩] 5 = some ⟨5, "x", "h", 0⟩ ∧
    showMigrationInfo [] ⟨[⟨5, "x", "h", 0⟩], []⟩ = .ok [] :=
  ⟨rfl, rfl⟩

/-- C3 (amended): the forward-script execution and the history insert are
two separate statements, not one transaction. In every *successful* run of
`up`/`up-to` they do pair up: the executed forward scripts and the inserted
history rows correspond one-to-one, in order, to the selected pending
migrations. But when the history insert fails after the forward script has
executed, the run aborts leaving the script executed with no history row —
see the counterexample. -/
theorem C3_success_pairs_exec_with_record
    {fs : MigFiles} {ms : List Migration} {st st1 : DBState}
    {execOk : String → Bool} {now : Nat} {upTo : Bool} {target : List Nat}
    (hload : loadMigrations fs = .ok ms)
    (hrun : applyMigrations fs execOk now upTo target st = ⟨none, st1⟩) :
    st1.executed = st.executed ++
      (selectPending (appliedMap st.history) upTo target ms).map (fun m => m.UpSQL) ∧
    st1.history = st.history ++
      (selectPending (appliedMap st.history) upTo target ms).map (mkRow now) := by
  obtain ⟨ms', hload', _, h1, h2, _, _⟩ := applyMigrations_none_inv hrun
  rw [hload] at hload'
  injection hload' with hms
  subst hms
  exact ⟨h2, h1⟩

set_option maxRecDepth 100000 in
/-- Witness for C3 (amended) at a one-file directory applied from an empty
history. -/
theorem C3_success_pairs_exec_with_record_witness :
    (DBState.mk [⟨1, "a", sha256Hex "-- +up\nCREATE TABLE a (x INT);\n-- +down\nDROP TABLE a;", 2⟩]
        ["CREATE TABLE a (x INT);"]).executed
      = [] ++ (selectPending (appliedMap ([] : List AppRow)) false []
          [⟨1, "a", "CREATE TABLE a (x INT);", "DROP TABLE a;",
            sha256Hex "-- +up\nCREATE TABLE a (x INT);\n-- +down\nDROP TABLE a;"⟩]).map
            (fun m => m.UpSQL) ∧
    (DBState.mk [⟨1, "a", sha256Hex "-- +up\nCREATE TABLE a (x INT);\n-- +down\nDROP TABLE a;", 2⟩]
        ["CREATE TABLE a (x INT);"]).history
      = [] ++ (selectPending (appliedMap ([] : List AppRow)) false []
          [⟨1, "a", "CREATE TABLE a (x INT);", "DROP TABLE a;",
            sha256Hex "-- +up\nCREATE TABLE a (x INT);\n-- +down\nDROP TABLE a;"⟩]).map
            (mkRow 2) :=
  @C3_success_pairs_exec_with_record
    [("1_a.sql", "-- +up\nCREATE TABLE a (x INT);\n-- +down\nDROP TABLE a;")]
    [⟨1, "a", "CREATE TABLE a (x INT);", "DROP TABLE a;",
      sha256Hex "-- +up\nCREATE TABLE a (x INT);\n-- +down\nDROP TABLE a;"⟩]
    ⟨[], []⟩
    ⟨[⟨1, "a", sha256Hex "-- +up\nCREATE TABLE a (x INT);\n-- +down\nDROP TABLE a;", 2⟩],
     ["CREATE TABLE a (x INT);"]⟩
    (fun _ => true) 2 false []
    (by decide) (by decide)

set_option maxRecDepth 100000 in
/-- Counterexample to C3 as stated: two files with the same content under
filenames "1_a.sql" and "01_a.sql" both parse to version 1, so both are
pending; the second forward execution succeeds but its history insert fails
on the `version` primary key. The run terminates having executed the
forward script twice while recording only one history row — a forward
execution with no corresponding ApplicationRecord. -/
theorem C3_exec_without_record_counterexample :
    applyMigrations
        [("1_a.sql", "-- +up\nCREATE TABLE a (x INT);\n-- +down\nDROP TABLE a;"),
         ("01_a.sql", "-- +up\nCREATE TABLE a (x INT);\n-- +down\nDROP TABLE a;")]
        (fun _ => true) 0 false [] ⟨[], []⟩
      = ⟨some (.recordFailed 1),
         ⟨[⟨1, "a", sha256Hex "-- +up\nCREATE TABLE a (x INT);\n-- +down\nDROP TABLE a;", 0⟩],
          ["CREATE TABLE a (x INT);", "CREATE TABLE a (x INT);"]⟩⟩ := by
  decide

theorem selectPending_versions_strict (applied : Nat → Option String) (upTo : Bool)
    (target : List Nat) {ms : List Migration}
    (hsorted : ms.Pairwise migLE) (hnodup : (ms.map (fun m => m.Version)).Nodup) :
    ((selectPending applied upTo target ms).map (fun m => m.Version)).Pairwise (· < ·) := by
  have hsubmap : ((selectPending applied upTo target ms).map (fun m => m.Version)).Sublist
      (ms.map (fun m => m.Version)) :=
    (selectPending_sublist applied upTo target ms).map _
  have hle : (ms.map (fun m => m.Version)).Pairwise (· ≤ ·) := by
    rw [List.pairwise_map]
    exact hsorted.imp (fun h => h)
  have hle' := hle.sublist hsubmap
  have hne : ((selectPending applied upTo target ms).map (fun m => m.Version)).Nodup :=
    hnodup.sublist hsubmap
  exact (hle'.and hne).imp (fun h => Nat.lt_of_le_of_ne h.1 h.2)

/-- C4: regardless of the order in which the directory entries are
discovered, a successful `up` run applies the pending migrations in
strictly ascending version order: the statement log is extended by the
selected pending migrations' forward scripts in selection order, and that
selection's versions are strictly increasing. -/
theorem C4_up_applies_in_strictly_ascending_version_order
    {fs : MigFiles} {ms : List Migration} {st st1 : DBState}
    {execOk : String → Bool} {now : Nat}
    (hload : loadMigrations fs = .ok ms)
    (hnodup : (ms.map (fun m => m.Version)).Nodup)
    (hrun : applyMigrations fs execOk now false [] st = ⟨none, st1⟩) :
    st1.executed = st.executed ++
      (selectPending (appliedMap st.history) false [] ms).map (fun m => m.UpSQL) ∧
    ((selectPending (appliedMap st.history) false [] ms).map
      (fun m => m.Version)).Pairwise (· < ·) := by
  obtain ⟨ms', hload', _, _, h2, _, _⟩ := applyMigrations_none_inv hrun
  rw [hload] at hload'
  injection hload' with hms
  subst hms
  exact ⟨h2, selectPending_versions_strict _ false [] (loadMigrations_sorted hload) hnodup⟩

set_option maxRecDepth 100000 in
/-- Witness for C4: directory enumerated in the order 3, 1, 2; the run
applies 1, 2, 3. -/
theorem C4_up_applies_in_strictly_ascending_version_order_witness :
    (DBState.mk
        [⟨1, "a", sha256Hex "-- +up\nU1\n-- +down\nD1", 7⟩,
         ⟨2, "b", sha256Hex "-- +up\nU2\n-- +down\nD2", 7⟩,
         ⟨3, "c", sha256Hex "-- +up\nU3\n-- +down\nD3", 7⟩]
        ["U1", "U2", "U3"]).executed
      = [] ++ (selectPending (appliedMap ([] : List AppRow)) false []
          [⟨1, "a", "U1", "D1", sha256Hex "-- +up\nU1\n-- +down\nD1"⟩,
           ⟨2, "b", "U2", "D2", sha256Hex "-- +up\nU2\n-- +down\nD2"⟩,
           ⟨3, "c", "U3", "D3", sha256Hex "-- +up\nU3\n-- +down\nD3"⟩]).map
          (fun m => m.UpSQL) ∧
    ((selectPending (appliedMap ([] : List AppRow)) false []
        [⟨1, "a", "U1", "D1", sha256Hex "-- +up\nU1\n-- +down\nD1"⟩,
         ⟨2, "b", "U2", "D2", sha256Hex "-- +up\nU2\n-- +down\nD2"⟩,
         ⟨3, "c", "U3", "D3", sha256Hex "-- +up\nU3\n-- +down\nD3"⟩]).map
        (fun m => m.Version)).Pairwise (· < ·) :=
  @C4_up_applies_in_strictly_ascending_version_order
    [("3_c.sql", "-- +up\nU3\n-- +down\nD3"),
     ("1_a.sql", "-- +up\nU1\n-- +down\nD1"),
     ("2_b.sql", "-- +up\nU2\n-- +down\nD2")]
    [⟨1, "a", "U1", "D1", sha256Hex "-- +up\nU1\n-- +down\nD1"⟩,
     ⟨2, "b", "U2", "D2", sha256Hex "-- +up\nU2\n-- +down\nD2"⟩,
     ⟨3, "c", "U3", "D3", sha256Hex "-- +up\nU3\n-- +down\nD3"⟩]
    ⟨[], []⟩
    ⟨[⟨1, "a", sha256Hex "-- +up\nU1\n-- +down\nD1", 7⟩,
      ⟨2, "b", sha256Hex "-- +up\nU2\n-- +down\nD2", 7⟩,
      ⟨3, "c", sha256Hex "-- +up\nU3\n-- +down\nD3", 7⟩],
     ["U1", "U2", "U3"]⟩
    (fun _ => true) 7
    (by decide) (by decide) (by decide)

/-- C5: for a target `t`, a run of `up-to t` (with valid fingerprints,
distinct versions, and successful statement execution) applies exactly the
pending migrations with version at most `t`, in ascending order, and every
pending migration with version above `t` remains unapplied; when `t` is
below all pending versions the filter is empty and nothing is applied. -/
theorem C5_upTo_applies_exactly_pending_at_most_target
    {fs : MigFiles} {ms : List Migration} {st : DBState}
    (execOk : String → Bool) (now t : Nat)
    (hload : loadMigrations fs = .ok ms)
    (hnodup : (ms.map (fun m => m.Version)).Nodup)
    (hval : findMismatch ms st.history = none)
    (hexec : ∀ s, execOk s = true) :
    applyMigrations fs execOk now true [t] st =
      ⟨none,
       ⟨st.history ++ (ms.filter (fun m =>
          (appliedMap st.history m.Version).isNone && decide (m.Version ≤ t))).map (mkRow now),
        st.executed ++ (ms.filter (fun m =>
          (appliedMap st.history m.Version).isNone && decide (m.Version ≤ t))).map
            (fun m => m.UpSQL)⟩⟩ ∧
    (∀ m ∈ ms, (appliedMap st.history m.Version).isNone → m.Version > t →
      lookupRow
        (st.history ++ (ms.filter (fun m =>
          (appliedMap st.history m.Version).isNone && decide (m.Version ≤ t))).map (mkRow now))
        m.Version = none) := by
  have hsel := selectPending_upTo (appliedMap st.history) t (loadMigrations_sorted hload)
  constructor
  · have := applyMigrations_spec execOk now true [t] hload hval hnodup
      (fun m _ => hexec m.UpSQL)
    rw [hsel] at this
    exact this
  · intro m hm hpend hgt
    rw [lookupRow_append_none_iff]
    constructor
    · rw [← appliedMap_isNone_iff]
      exact hpend
    · unfold lookupRow
      rw [List.find?_eq_none]
      intro r hr
      rw [List.mem_map] at hr
      obtain ⟨m', hm', hr'⟩ := hr
      rw [List.mem_filter] at hm'
      have hle : m'.Version ≤ t := by
        have := hm'.2
        rw [Bool.and_eq_true] at this
        simpa using this.2
      subst hr'
      show ¬((mkRow now m').version == m.Version) = true
      simp only [mkRow, beq_iff_eq]
      intro hvv
      rw [hvv] at hle
      omega

set_option maxRecDepth 1000000 in
/-- Witness for C5: pending versions 2, 3, 4 with target 3 (only 2 and 3
are applied), and with target 1 below all pending versions (nothing is
applied). -/
theorem C5_upTo_applies_exactly_pending_at_most_target_witness :
    (applyMigrations [("2_b.sql", "-- +up\nU2\n-- +down\nD2"),
        ("3_c.sql", "-- +up\nU3\n-- +down\nD3"), ("4_d.sql", "-- +up\nU4\n-- +down\nD4")]
        (fun _ => true) 7 true [3] ⟨[], []⟩ =
      ⟨none,
       ⟨[] ++ ([(⟨2, "b", "U2", "D2", sha256Hex "-- +up\nU2\n-- +down\nD2"⟩ : Migration),
           ⟨3, "c", "U3", "D3", sha256Hex "-- +up\nU3\n-- +down\nD3"⟩,
           ⟨4, "d", "U4", "D4", sha256Hex "-- +up\nU4\n-- +down\nD4"⟩].filter (fun m =>
            (appliedMap ([] : List AppRow) m.Version).isNone && decide (m.Version ≤ 3))).map
              (mkRow 7),
        [] ++ ([(⟨2, "b", "U2", "D2", sha256Hex "-- +up\nU2\n-- +down\nD2"⟩ : Migration),
           ⟨3, "c", "U3", "D3", sha256Hex "-- +up\nU3\n-- +down\nD3"⟩,
           ⟨4, "d", "U4", "D4", sha256Hex "-- +up\nU4\n-- +down\nD4"⟩].filter (fun m =>
            (appliedMap ([] : List AppRow) m.Version).isNone && decide (m.Version ≤ 3))).map
              (fun m => m.UpSQL)⟩⟩) ∧
    (∀ m ∈ [(⟨2, "b", "U2", "D2", sha256Hex "-- +up\nU2\n-- +down\nD2"⟩ : Migration),
        ⟨3, "c", "U3", "D3", sha256Hex "-- +up\nU3\n-- +down\nD3"⟩,
        ⟨4, "d", "U4", "D4", sha256Hex "-- +up\nU4\n-- +down\nD4"⟩],
      (appliedMap ([] : List AppRow) m.Version).isNone → m.Version > 3 →
      lookupRow
        ([] ++ ([(⟨2, "b", "U2", "D2", sha256Hex "-- +up\nU2\n-- +down\nD2"⟩ : Migration),
           ⟨3, "c", "U3", "D3", sha256Hex "-- +up\nU3\n-- +down\nD3"⟩,
           ⟨4, "d", "U4", "D4", sha256Hex "-- +up\nU4\n-- +down\nD4"⟩].filter (fun m =>
            (appliedMap ([] : List AppRow) m.Version).isNone && decide (m.Version ≤ 3))).map
              (mkRow 7))
        m.Version = none) :=
  @C5_upTo_applies_exactly_pending_at_most_target
    [("2_b.sql", "-- +up\nU2\n-- +down\nD2"), ("3_c.sql", "-- +up\nU3\n-- +down\nD3"),
     ("4_d.sql", "-- +up\nU4\n-- +down\nD4")]
    [⟨2, "b", "U2", "D2", sha256Hex "-- +up\nU2\n-- +down\nD2"⟩,
     ⟨3, "c", "U3", "D3", sha256Hex "-- +up\nU3\n-- +down\nD3"⟩,
     ⟨4, "d", "U4", "D4", sha256Hex "-- +up\nU4\n-- +down\nD4"⟩]
    ⟨[], []⟩
    (fun _ => true) 7 3
    (by decide) (by decide) (by decide) (fun _ => rfl)

theorem lookupRow_append_right {h1 : List AppRow} {v : Nat} (h2 : List AppRow)
    (h : lookupRow h1 v = none) : lookupRow (h1 ++ h2) v = lookupRow h2 v := by
  rw [lookupRow_append, h]
  cases lookupRow h2 v <;> rfl

/-- C7: on a non-empty applied history, one `down` invocation rolls back
exactly the single highest applied version: it executes only that version's
reverse script, deletes only that version's history row (rows with any
other version all survive, and no new rows appear), and every other
applied version is at most the rolled-back one. -/
theorem C7_down_rolls_back_exactly_highest_version
    {fs : MigFiles} {st : DBState} {r : AppRow} {content : String} {m : Migration}
    (execOk : String → Bool)
    (hmax : maxRow st.history = some r)
    (hfile : lookupFile fs (rollbackFilename r.version r.name) = some content)
    (hparse : parseMigrationFile (rollbackFilename r.version r.name) content = .ok m)
    (hexec : execOk m.DownSQL = true) :
    rollbackLastMigration fs execOk st =
      ⟨none, false, ⟨st.history.filter (fun q => q.version != r.version),
                     st.executed ++ [m.DownSQL]⟩⟩ ∧
    (∀ q ∈ st.history, q.version ≤ r.version) ∧
    (∀ q ∈ st.history, q.version ≠ r.version →
      q ∈ st.history.filter (fun q => q.version != r.version)) ∧
    (∀ q ∈ st.history.filter (fun q => q.version != r.version),
      q ∈ st.history ∧ q.version ≠ r.version) := by
  refine ⟨?_, maxRow_max hmax, ?_, ?_⟩
  · unfold rollbackLastMigration
    rw [hmax]
    dsimp only
    rw [hfile]
    dsimp only
    rw [hparse]
    dsimp only
    simp [hexec]
  · intro q hq hne
    rw [List.mem_filter]
    exact ⟨hq, by simpa using hne⟩
  · intro q hq
    rw [List.mem_filter] at hq
    exact ⟨hq.1, by simpa using hq.2⟩

set_option maxRecDepth 100000 in
/-- Witness for C7: applied versions 1, 2, 3. The first `down` removes
exactly version 3; a second `down` on the resulting state removes
exactly version 2. -/
theorem C7_down_rolls_back_exactly_highest_version_witness :
    rollbackLastMigration
        [("1_a.sql", "-- +up\nU1\n-- +down\nD1"), ("2_b.sql", "-- +up\nU2\n-- +down\nD2"),
         ("3_c.sql", "-- +up\nU3\n-- +down\nD3")]
        (fun _ => true)
        ⟨[⟨1, "a", "h1", 0⟩, ⟨2, "b", "h2", 0⟩, ⟨3, "c", "h3", 0⟩], []⟩ =
      ⟨none, false,
       ⟨[⟨1, "a", "h1", 0⟩, ⟨2, "b", "h2", 0⟩, ⟨3, "c", "h3", 0⟩].filter
          (fun q => q.version != 3),
        [] ++ ["D3"]⟩⟩ ∧
    rollbackLastMigration
        [("1_a.sql", "-- +up\nU1\n-- +down\nD1"), ("2_b.sql", "-- +up\nU2\n-- +down\nD2"),
         ("3_c.sql", "-- +up\nU3\n-- +down\nD3")]
        (fun _ => true)
        ⟨[⟨1, "a", "h1", 0⟩, ⟨2, "b", "h2", 0⟩], ["D3"]⟩ =
      ⟨none, false,
       ⟨[⟨1, "a", "h1", 0⟩, ⟨2, "b", "h2", 0⟩].filter (fun q => q.version != 2),
        ["D3"] ++ ["D2"]⟩⟩ :=
  ⟨(@C7_down_rolls_back_exactly_highest_version
      [("1_a.sql", "-- +up\nU1\n-- +down\nD1"), ("2_b.sql", "-- +up\nU2\n-- +down\nD2"),
       ("3_c.sql", "-- +up\nU3\n-- +down\nD3")]
      ⟨[⟨1, "a", "h1", 0⟩, ⟨2, "b", "h2", 0⟩, ⟨3, "c", "h3", 0⟩], []⟩
      ⟨3, "c", "h3", 0⟩ "-- +up\nU3\n-- +down\nD3"
      ⟨3, "c", "U3", "D3", sha256Hex "-- +up\nU3\n-- +down\nD3"⟩
      (fun _ => true) rfl rfl (by decide) rfl).1,
   (@C7_down_rolls_back_exactly_highest_version
      [("1_a.sql", "-- +up\nU1\n-- +down\nD1"), ("2_b.sql", "-- +up\nU2\n-- +down\nD2"),
       ("3_c.sql", "-- +up\nU3\n-- +down\nD3")]
      ⟨[⟨1, "a", "h1", 0⟩, ⟨2, "b", "h2", 0⟩], ["D3"]⟩
      ⟨2, "b", "h2", 0⟩ "-- +up\nU2\n-- +down\nD2"
      ⟨2, "b", "U2", "D2", sha256Hex "-- +up\nU2\n-- +down\nD2"⟩
      (fun _ => true) rfl rfl (by decide) rfl).1⟩

theorem up_noop_of_all_applied {fs : MigFiles} {ms : List Migration} {st : DBState}
    (execOk : String → Bool) (now : Nat)
    (hload : loadMigrations fs = .ok ms)
    (hall : ∀ m ∈ ms, ∃ r, lookupRow st.history m.Version = some r ∧
      r.checksum = m.Checksum) :
    applyMigrations fs execOk now false [] st = ⟨none, st⟩ := by
  unfold applyMigrations
  rw [hload]
  dsimp only
  have hval : findMismatch ms st.history = none := by
    rw [findMismatch_none_iff]
    intro m hm r hr
    obtain ⟨r', hr', hc⟩ := hall m hm
    rw [hr] at hr'
    injection hr' with h
    rw [← h] at hc
    exact hc
  rw [hval]
  apply applyLoop_all_applied
  intro m hm
  obtain ⟨r, hr, _⟩ := hall m hm
  unfold appliedMap
  rw [hr]
  rfl

/-- C6: `up` is idempotent. First, when every discovered migration is
already applied with a matching fingerprint, `up` succeeds, executes no SQL
statement, and leaves the database state (history rows included) exactly
unchanged. Second, after any successful `up` run, running `up` again over
the same directory — with any execution oracle and any clock — succeeds,
executes nothing, and yields the same history as the first run. -/
theorem C6_up_is_idempotent :
    (∀ (fs : MigFiles) (ms : List Migration) (st : DBState)
        (execOk : String → Bool) (now : Nat),
      loadMigrations fs = .ok ms →
      (∀ m ∈ ms, ∃ r, lookupRow st.history m.Version = some r ∧
        r.checksum = m.Checksum) →
      applyMigrations fs execOk now false [] st = ⟨none, st⟩) ∧
    (∀ (fs : MigFiles) (st st1 : DBState) (execOk execOk2 : String → Bool)
        (now now2 : Nat),
      applyMigrations fs execOk now false [] st = ⟨none, st1⟩ →
      applyMigrations fs execOk2 now2 false [] st1 = ⟨none, st1⟩) := by
  constructor
  · intro fs ms st execOk now hload hall
    exact up_noop_of_all_applied execOk now hload hall
  · intro fs st st1 execOk execOk2 now now2 h
    obtain ⟨ms, hload, hval, h1, h2, h3, h4⟩ := applyMigrations_none_inv h
    apply up_noop_of_all_applied execOk2 now2 hload
    intro m hm
    cases hlk : lookupRow st.history m.Version with
    | some r =>
        have hc : r.checksum = m.Checksum :=
          (findMismatch_none_iff ms st.history).mp hval m hm r hlk
        refine ⟨r, ?_, hc⟩
        rw [h1]
        exact lookupRow_append_left _ hlk
    | none =>
        have hm_sel : m ∈ selectPending (appliedMap st.history) false [] ms := by
          rw [selectPending_up, List.mem_filter]
          refine ⟨hm, ?_⟩
          rw [Option.isNone_iff_eq_none]
          unfold appliedMap
          rw [hlk]
          rfl
        have hrow : mkRow now m ∈
            (selectPending (appliedMap st.history) false [] ms).map (mkRow now) :=
          List.mem_map_of_mem _ hm_sel
        have hsome : (lookupRow
            ((selectPending (appliedMap st.history) false [] ms).map (mkRow now))
            m.Version).isSome := by
          unfold lookupRow
          rw [List.find?_isSome]
          exact ⟨mkRow now m, hrow, by simp [mkRow]⟩
        obtain ⟨r', hr'⟩ := Option.isSome_iff_exists.mp hsome
        have hrf : List.find? (fun q => q.version == m.Version)
            ((selectPending (appliedMap st.history) false [] ms).map (mkRow now))
            = some r' := hr'
        have hr'mem := List.mem_of_find?_eq_some hrf
        have hr'ver := List.find?_some hrf
        rw [List.mem_map] at hr'mem
        obtain ⟨m2, hm2, hmk⟩ := hr'mem
        have hv : m2.Version = m.Version := by
          rw [← hmk] at hr'ver
          simpa [mkRow] using hr'ver
        have hm2m : m2 = m :=
          List.inj_on_of_nodup_map h4 hm2 hm_sel hv
        subst hm2m
        refine ⟨r', ?_, ?_⟩
        · rw [h1, lookupRow_append_right _ hlk]
          exact hr'
        · rw [← hmk]
          rfl

set_option maxRecDepth 100000 in
/-- Witness for C6: a fully-applied state is a fixed point of `up`, and
the state produced by a first `up` run is fixed by a second run even under
an oracle that fails every statement (nothing is executed). -/
theorem C6_up_is_idempotent_witness :
    applyMigrations [("1_a.sql", "-- +up\nU1\n-- +down\nD1")] (fun _ => true) 8 false []
        ⟨[⟨1, "a", sha256Hex "-- +up\nU1\n-- +down\nD1", 5⟩], ["U1"]⟩ =
      ⟨none, ⟨[⟨1, "a", sha256Hex "-- +up\nU1\n-- +down\nD1", 5⟩], ["U1"]⟩⟩ ∧
    applyMigrations [("1_a.sql", "-- +up\nU1\n-- +down\nD1")] (fun _ => false) 9 false []
        ⟨[⟨1, "a", sha256Hex "-- +up\nU1\n-- +down\nD1", 4⟩], ["U1"]⟩ =
      ⟨none, ⟨[⟨1, "a", sha256Hex "-- +up\nU1\n-- +down\nD1", 4⟩], ["U1"]⟩⟩ :=
  ⟨C6_up_is_idempotent.1 [("1_a.sql", "-- +up\nU1\n-- +down\nD1")]
      [⟨1, "a", "U1", "D1", sha256Hex "-- +up\nU1\n-- +down\nD1"⟩]
      ⟨[⟨1, "a", sha256Hex "-- +up\nU1\n-- +down\nD1", 5⟩], ["U1"]⟩
      (fun _ => true) 8 (by decide)
      (by
        intro m hm
        rw [List.mem_singleton] at hm
        subst hm
        exact ⟨⟨1, "a", sha256Hex "-- +up\nU1\n-- +down\nD1", 5⟩, rfl, rfl⟩),
   C6_up_is_idempotent.2 [("1_a.sql", "-- +up\nU1\n-- +down\nD1")]
      ⟨[], []⟩ ⟨[⟨1, "a", sha256Hex "-- +up\nU1\n-- +down\nD1", 4⟩], ["U1"]⟩
      (fun _ => true) (fun _ => false) 4 9 (by decide)⟩
